import Mathlib

/-!
Verification of the directory-tree HTML generator (src/tree_html.py).

The development shallowly embeds the two core components of the program:

* the recursive tree builder `Node.build` (stat collection, error tolerance,
  cumulative size aggregation, sorting by descending modification time), and
* the recursive renderer `Node.to_html` (escaping, indentation, collapsible
  directory groups), together with the size formatter `human_size`.

The filesystem is modelled by the inductive type `FSEntry`: a deterministic
snapshot of what the filesystem calls return for each path.  A path whose
`stat()` raises is a `statFail` entry; a file carries the stat result
(size, ctime, mtime); a directory carries its stat result, a flag telling
whether `iterdir()` succeeds, and the enumerated entries in filesystem
enumeration order.  Timestamps are rationals (the Python program manipulates
them as floats but only ever compares them and passes them to a formatter;
all inputs exercised here are exactly representable).  Byte counts are `ℕ`.

Python's `list.sort(key=..., reverse=True)` is a stable sort by descending
key; it is embedded as the stable insertion sort `sortDesc`, which produces
the same list as any stable descending sort.

Python's float formatting `f"{x:.1f}"` rounds the (here exactly represented)
value to one decimal digit, ties to even; it is embedded exactly over `ℚ`
by `formatFix1`.  Local-time timestamp rendering (`datetime.fromtimestamp`
followed by `strftime`) depends on the ambient timezone and is outside the
embedding; `ts_to_str` models it as an abstract rendering of the rational
timestamp.  No claim below depends on its output text.
-/

/-- Embedding of `human_size`'s float formatting `f"{num_bytes:.1f}"`:
round `q` to one decimal digit (ties to even, as Python's float formatting
does; for the dyadic rationals reachable in `human_size` a tie cannot occur)
and print integer part, a dot, and the single decimal digit. -/
def formatFix1 (q : ℚ) : String :=
  let t : ℚ := q * 10
  let f : ℤ := ⌊t⌋
  let r : ℚ := t - (f : ℚ)
  let d : ℤ := if 1/2 < r ∨ (r = 1/2 ∧ f % 2 ≠ 0) then f + 1 else f
  toString (d / 10) ++ "." ++ toString (d % 10)

/-- Embedding of line 41 of the source: the body of the return inside the
loop of `human_size`, `f"{num_bytes:.1f} {unit}" if unit != "bytes" else
f"{num_bytes} {unit}"`.  In the `"bytes"` case the running value is still
the original integer, printed without decimals. -/
def fmtUnit (num : ℚ) (unit : String) : String :=
  if unit = "bytes" then toString num.num ++ " " ++ unit
  else formatFix1 num ++ " " ++ unit

/-- The unit tuple `("bytes", "KiB", "MiB", "GiB", "TiB")` from line 39. -/
def sizeUnits : List String := ["bytes", "KiB", "MiB", "GiB", "TiB"]

/-- Embedding of the `for unit in (...)` loop of `human_size` (lines 39-42):
at each unit, return if `num_bytes < 1024.0 or unit == "TiB"`, otherwise
divide by 1024 and continue.  Returns the final running value together with
`some` formatted string if a `return` inside the loop fired, or `none` if
the loop ran out of units (so that the caller reaches the `PiB` line). -/
def humanLoop (num : ℚ) : List String → ℚ × Option String
  | [] => (num, none)
  | unit :: rest =>
      if num < 1024 ∨ unit = "TiB" then (num, some (fmtUnit num unit))
      else humanLoop (num / 1024) rest

/-- Embedding of `human_size` (lines 35-43): the `num_bytes == 1` special
case, then the unit loop, then the trailing `PiB` fallback line. -/
def human_size (numBytes : ℕ) : String :=
  if numBytes = 1 then "1 byte"
  else
    match humanLoop (numBytes : ℚ) sizeUnits with
    | (_, some s) => s
    | (num, none) => formatFix1 num ++ " PiB"

/-- Per-character action of Python's `html.escape(s, quote=False)` (used at
line 106): `&` becomes `&amp;`, `<` becomes `&lt;`, `>` becomes `&gt;`, and
every other character (including both quote characters, since `quote=False`)
passes through unchanged. -/
def escapeChar (c : Char) : List Char :=
  if c = '&' then [ '&', 'a', 'm', 'p', ';' ]
  else if c = '<' then [ '&', 'l', 't', ';' ]
  else if c = '>' then [ '&', 'g', 't', ';' ]
  else [c]

/-- Embedding of `html.escape(s, quote=False)`.  The Python implementation
performs the three substring replacements sequentially, which is equal to
this single per-character pass because no replacement text contains a
character that a later replacement rewrites. -/
def html_escape (s : String) : String := String.mk (s.data.map escapeChar).flatten

/-- Recognizer for the tail of one of the three entities `&amp;`, `&lt;`,
`&gt;` right after their `&`: returns the remaining text when the tail is
present. -/
def entityTail : List Char → Option (List Char)
  | 'a' :: 'm' :: 'p' :: ';' :: rest => some rest
  | 'l' :: 't' :: ';' :: rest => some rest
  | 'g' :: 't' :: ';' :: rest => some rest
  | _ => none

theorem entityTail_length {cs rest : List Char} (h : entityTail cs = some rest) :
    rest.length < cs.length := by
  unfold entityTail at h
  split at h <;> simp_all <;> omega

/-- Specification predicate for escaped text: no raw `<` or `>` occurs, and
every `&` begins one of the three entities `&amp;`, `&lt;`, `&gt;`.  Text
satisfying this can never be read as raw structural markup. -/
def wellEscaped : List Char → Bool
  | [] => true
  | c :: cs =>
      if c = '<' ∨ c = '>' then false
      else if c = '&' then
        match hrest : entityTail cs with
        | some rest => wellEscaped rest
        | none => false
      else wellEscaped cs
termination_by l => l.length
decreasing_by
  · have h := entityTail_length hrest
    simp only [List.length_cons]
    omega
  · simp only [List.length_cons]
    omega

/-- Model of `ts_to_str` (lines 31-33).  The source formats the timestamp as
a local-time `YYYY-MM-DD HH:MM:SS` string; the timezone-dependent text is
outside the embedding, so the timestamp is rendered abstractly.  No claim
below depends on the concrete text this returns. -/
def ts_to_str (ts : ℚ) : String := toString ts

/-- Embedding of `pad = "  " * indent` (line 110): the two-space string
repeated `indent` times. -/
def padStr : ℕ → String
  | 0 => ""
  | n + 1 => "  " ++ padStr n

/-- A deterministic filesystem snapshot, as seen through the calls
`path.stat()`, `path.is_dir()` and `path.iterdir()` that `Node.build`
makes.  `statFail` is a path whose `stat()` raises `OSError`; `file` and
`dir` carry the stat results (size, ctime, mtime); for a directory,
`listOk` tells whether `iterdir()` succeeds and `entries` are the children
in filesystem enumeration order.  A directory's stat also reports a size
(`size` field), which the program never uses. -/
inductive FSEntry : Type where
  | statFail (name : String)
  | file (name : String) (size : ℕ) (ctime mtime : ℚ)
  | dir (name : String) (size : ℕ) (ctime mtime : ℚ) (listOk : Bool) (entries : List FSEntry)

/-- Whether `child.stat()` succeeds for this entry (the `try` at lines
88-91). -/
def statOk : FSEntry → Bool
  | .statFail _ => false
  | _ => true

/-- The `st_mtime` that the parent's `stat_map[p].st_mtime` lookup yields
for an entry (the sort key at line 96).  Only ever used on entries with
`statOk`. -/
def entryMtime : FSEntry → ℚ
  | .statFail _ => 0
  | .file _ _ _ mt => mt
  | .dir _ _ _ mt _ _ => mt

/-- Insertion step of the stable descending sort: `x` is placed before the
first element whose key is ≤ its own, so an element coming earlier in the
original list stays before later elements with an equal key. -/
def insertDesc {α : Type} (key : α → ℚ) (x : α) : List α → List α
  | [] => [x]
  | y :: ys => if key y ≤ key x then x :: y :: ys else y :: insertDesc key x ys

/-- Embedding of `entries.sort(key=lambda p: stat_map[p].st_mtime,
reverse=True)` (line 96): a stable sort by descending key.  Stable sorts by
a fixed key are unique, so this insertion sort returns exactly the list
Python's Timsort produces. -/
def sortDesc {α : Type} (key : α → ℚ) : List α → List α
  | [] => []
  | x :: xs => insertDesc key x (sortDesc key xs)

theorem mem_of_mem_insertDesc {α : Type} {key : α → ℚ} {x a : α} {l : List α}
    (h : x ∈ insertDesc key a l) : x = a ∨ x ∈ l := by
  induction l with
  | nil =>
    simp only [insertDesc, List.mem_singleton] at h
    exact Or.inl h
  | cons y ys ih =>
    rw [insertDesc] at h
    by_cases hc : key y ≤ key a
    · rw [if_pos hc] at h
      simp only [List.mem_cons] at h ⊢
      exact h
    · rw [if_neg hc] at h
      simp only [List.mem_cons] at h ⊢
      rcases h with h | h
      · exact Or.inr (Or.inl h)
      · rcases ih h with h2 | h2
        · exact Or.inl h2
        · exact Or.inr (Or.inr h2)

theorem mem_of_mem_sortDesc {α : Type} {key : α → ℚ} {x : α} {l : List α}
    (h : x ∈ sortDesc key l) : x ∈ l := by
  induction l with
  | nil => simp only [sortDesc] at h; exact absurd h (List.not_mem_nil x)
  | cons y ys ih =>
    rw [sortDesc] at h
    rcases mem_of_mem_insertDesc h with h2 | h2
    · simp [h2]
    · simp [ih h2]

/-- The in-memory tree node built by the program: display name, directory
flag, size (cumulative for directories), creation and modification
timestamps, and the ordered children (empty for non-directories).  The
`path` attribute of the source is abstracted to the display name it gives
rise to (`path.name or str(path)`), which is all the rest of the program
reads. -/
inductive Node : Type where
  | mk (name : String) (is_dir : Bool) (size : ℕ) (ctime mtime : ℚ) (children : List Node)

def Node.name : Node → String
  | .mk nm _ _ _ _ _ => nm

def Node.is_dir : Node → Bool
  | .mk _ d _ _ _ _ => d

def Node.size : Node → ℕ
  | .mk _ _ sz _ _ _ => sz

def Node.ctime : Node → ℚ
  | .mk _ _ _ ct _ _ => ct

def Node.mtime : Node → ℚ
  | .mk _ _ _ _ mt _ => mt

def Node.children : Node → List Node
  | .mk _ _ _ _ _ ch => ch

@[simp] theorem Node.name_mk (nm : String) (d : Bool) (sz : ℕ) (ct mt : ℚ) (ch : List Node) :
    (Node.mk nm d sz ct mt ch).name = nm := rfl

@[simp] theorem Node.is_dir_mk (nm : String) (d : Bool) (sz : ℕ) (ct mt : ℚ) (ch : List Node) :
    (Node.mk nm d sz ct mt ch).is_dir = d := rfl

@[simp] theorem Node.size_mk (nm : String) (d : Bool) (sz : ℕ) (ct mt : ℚ) (ch : List Node) :
    (Node.mk nm d sz ct mt ch).size = sz := rfl

@[simp] theorem Node.ctime_mk (nm : String) (d : Bool) (sz : ℕ) (ct mt : ℚ) (ch : List Node) :
    (Node.mk nm d sz ct mt ch).ctime = ct := rfl

@[simp] theorem Node.mtime_mk (nm : String) (d : Bool) (sz : ℕ) (ct mt : ℚ) (ch : List Node) :
    (Node.mk nm d sz ct mt ch).mtime = mt := rfl

@[simp] theorem Node.children_mk (nm : String) (d : Bool) (sz : ℕ) (ct mt : ℚ) (ch : List Node) :
    (Node.mk nm d sz ct mt ch).children = ch := rfl

theorem sizeOf_lt_of_mem_sorted {e : FSEntry} {nm : String} {sz : ℕ} {ct mt : ℚ}
    {ok : Bool} {l : List FSEntry}
    (h : e ∈ sortDesc entryMtime ((if ok then l else []).filter statOk)) :
    sizeOf e < sizeOf (FSEntry.dir nm sz ct mt ok l) := by
  have h2 := List.mem_of_mem_filter (mem_of_mem_sortDesc h)
  cases ok with
  | false => simp at h2
  | true =>
    simp only [if_pos] at h2
    have h3 := List.sizeOf_lt_of_mem h2
    simp only [FSEntry.dir.sizeOf_spec]
    omega

/-- Embedding of `Node.build` (lines 68-102).  A failed root `stat()`
(lines 71-76) yields the ghost leaf.  For a directory: enumerate (an
enumeration failure means zero entries, lines 80-84), drop entries whose
own `stat()` fails (lines 86-94), sort survivors by descending mtime
(line 96), recursively build each (line 98), and sum the children's sizes
for the directory's own size (lines 99-100) — the directory's stat size is
deliberately ignored.  A non-directory yields a leaf carrying its stat
data (line 102). -/
def Node.build : FSEntry → Node
  | .statFail nm => .mk nm false 0 0 0 []
  | .file nm sz ct mt => .mk nm false sz ct mt []
  | .dir nm _ ct mt listOk rawEntries =>
      let entries := (if listOk then rawEntries else []).filter statOk
      let sorted := sortDesc entryMtime entries
      let children := sorted.attach.map fun e => Node.build e.1
      .mk nm true ((children.map Node.size).sum) ct mt children
termination_by e => sizeOf e
decreasing_by exact sizeOf_lt_of_mem_sorted e.2

theorem attach_map_eq {α β : Type} (l : List α) (f : α → β) :
    (l.attach.map fun x => f x.1) = l.map f := by
  rw [List.attach, List.attachWith, List.map_pmap, List.pmap_eq_map]

theorem build_statFail_eq (nm : String) :
    Node.build (.statFail nm) = Node.mk nm false 0 0 0 [] := by
  rw [Node.build]

theorem build_file_eq (nm : String) (sz : ℕ) (ct mt : ℚ) :
    Node.build (.file nm sz ct mt) = Node.mk nm false sz ct mt [] := by
  rw [Node.build]

theorem build_dir_eq (nm : String) (sz : ℕ) (ct mt : ℚ) (ok : Bool) (l : List FSEntry) :
    Node.build (.dir nm sz ct mt ok l) =
      Node.mk nm true
        ((((sortDesc entryMtime ((if ok then l else []).filter statOk)).map Node.build).map
          Node.size).sum)
        ct mt
        ((sortDesc entryMtime ((if ok then l else []).filter statOk)).map Node.build) := by
  rw [Node.build]
  rw [attach_map_eq (sortDesc entryMtime ((if ok then l else []).filter statOk))
    (fun e => Node.build e)]

theorem build_mtime {e : FSEntry} (h : statOk e = true) :
    (Node.build e).mtime = entryMtime e := by
  cases e with
  | statFail nm => simp [statOk] at h
  | file nm sz ct mt => rw [build_file_eq]; rfl
  | dir nm sz ct mt ok l => rw [build_dir_eq]; rfl

/-- Embedding of `Node.to_html` (lines 104-126): escape the display name,
format the timestamps and the size, compute the indentation pad; a
directory emits the `<details open>` header with summary line and `<ul>`,
the children rendered at `indent + 2`, and the closing tags; a leaf emits
a single `<li>` line. -/
def Node.to_html : Node → ℕ → String
  | .mk nm d sz ct mt ch, indent =>
      let esc_name := html_escape nm
      let created := ts_to_str ct
      let modified := ts_to_str mt
      let size_h := human_size sz
      let pad := padStr indent
      if d then
        (pad ++ "<details open>\n"
          ++ pad ++ "  <summary>📁 <strong>" ++ esc_name ++ "/</strong>"
          ++ " (" ++ size_h ++ ", modified " ++ modified ++ ")</summary>\n"
          ++ pad ++ "  <ul>\n")
        ++ String.join (ch.attach.map fun c => Node.to_html c.1 (indent + 2))
        ++ (pad ++ "  </ul>\n" ++ pad ++ "</details>\n")
      else
        pad ++ "<li>📄 " ++ esc_name ++ " <small>(" ++ size_h ++ ", modified "
          ++ modified ++ ")</small></li>\n"
termination_by n indent => sizeOf n
decreasing_by
  have h := List.sizeOf_lt_of_mem c.2
  simp only [Node.mk.sizeOf_spec]
  omega

theorem to_html_dir_eq (nm : String) (sz : ℕ) (ct mt : ℚ) (ch : List Node) (indent : ℕ) :
    Node.to_html (.mk nm true sz ct mt ch) indent =
      (padStr indent ++ "<details open>\n"
        ++ padStr indent ++ "  <summary>📁 <strong>" ++ html_escape nm ++ "/</strong>"
        ++ " (" ++ human_size sz ++ ", modified " ++ ts_to_str mt ++ ")</summary>\n"
        ++ padStr indent ++ "  <ul>\n")
      ++ String.join (ch.map fun c => Node.to_html c (indent + 2))
      ++ (padStr indent ++ "  </ul>\n" ++ padStr indent ++ "</details>\n") := by
  rw [Node.to_html, if_pos rfl]
  rw [attach_map_eq ch (fun c => Node.to_html c (indent + 2))]

theorem to_html_leaf_eq (nm : String) (sz : ℕ) (ct mt : ℚ) (ch : List Node) (indent : ℕ) :
    Node.to_html (.mk nm false sz ct mt ch) indent =
      padStr indent ++ "<li>📄 " ++ html_escape nm ++ " <small>(" ++ human_size sz
        ++ ", modified " ++ ts_to_str mt ++ ")</small></li>\n" := by
  rw [Node.to_html, if_neg Bool.false_ne_true]

/-- Size invariant checker over a built tree: at every directory node the
stored size is the sum of the direct children's sizes. -/
def sizeOk : Node → Bool
  | .mk _ d sz _ _ ch =>
      (!d || (sz == (ch.map Node.size).sum)) && (ch.attach.all fun c => sizeOk c.1)
termination_by n => sizeOf n
decreasing_by
  have h := List.sizeOf_lt_of_mem c.2
  simp only [Node.mk.sizeOf_spec]
  omega

/-- Total size of the leaves (non-directory nodes) of a tree: the
transitive sum of all descendant file sizes of a directory. -/
def leafTotal : Node → ℕ
  | .mk _ d sz _ _ ch =>
      if d then (ch.attach.map fun c => leafTotal c.1).sum else sz
termination_by n => sizeOf n
decreasing_by
  have h := List.sizeOf_lt_of_mem c.2
  simp only [Node.mk.sizeOf_spec]
  omega

/-- Ordering invariant over a built tree: at every node the children appear
in non-increasing order of their modification times. -/
def sortedOk : Node → Prop
  | .mk _ _ _ _ _ ch =>
      List.Pairwise (fun a b => Node.mtime b ≤ Node.mtime a) ch ∧
      ∀ c ∈ ch.attach, sortedOk c.1
termination_by n => sizeOf n
decreasing_by
  have h := List.sizeOf_lt_of_mem c.2
  simp only [Node.mk.sizeOf_spec]
  omega

theorem pairwise_insertDesc {α : Type} {key : α → ℚ} (x : α) {l : List α}
    (h : l.Pairwise fun a b => key b ≤ key a) :
    (insertDesc key x l).Pairwise fun a b => key b ≤ key a := by
  induction l with
  | nil => simp [insertDesc]
  | cons y ys ih =>
    rw [insertDesc]
    rw [List.pairwise_cons] at h
    by_cases hc : key y ≤ key x
    · rw [if_pos hc, List.pairwise_cons]
      constructor
      · intro z hz
        rcases List.mem_cons.mp hz with rfl | hz2
        · exact hc
        · exact le_trans (h.1 z hz2) hc
      · rw [List.pairwise_cons]
        exact h
    · rw [if_neg hc, List.pairwise_cons]
      constructor
      · intro z hz
        rcases mem_of_mem_insertDesc hz with rfl | hz2
        · exact le_of_lt (not_le.mp hc)
        · exact h.1 z hz2
      · exact ih h.2

theorem pairwise_sortDesc {α : Type} (key : α → ℚ) (l : List α) :
    (sortDesc key l).Pairwise fun a b => key b ≤ key a := by
  induction l with
  | nil => simp [sortDesc]
  | cons x xs ih =>
    rw [sortDesc]
    exact pairwise_insertDesc x ih

theorem filter_key_insertDesc {α : Type} (key : α → ℚ) (m : ℚ) (x : α) (l : List α) :
    (insertDesc key x l).filter (fun z => key z == m)
      = if key x == m then x :: l.filter (fun z => key z == m)
        else l.filter (fun z => key z == m) := by
  induction l with
  | nil =>
    rw [insertDesc]
    simp only [List.filter_cons, List.filter_nil]
  | cons y ys ih =>
    rw [insertDesc]
    by_cases hc : key y ≤ key x
    · rw [if_pos hc]
      simp only [List.filter_cons]
    · rw [if_neg hc]
      by_cases hx : (key x == m) = true
      · by_cases hy : (key y == m) = true
        · exfalso
          have hxy : key y = key x := by rw [beq_iff_eq.mp hy, beq_iff_eq.mp hx]
          exact hc (le_of_eq hxy)
        · simp only [List.filter_cons, ih]
          simp [hx, hy]
      · simp only [List.filter_cons, ih]
        simp [hx]

theorem filter_key_sortDesc {α : Type} (key : α → ℚ) (m : ℚ) (l : List α) :
    (sortDesc key l).filter (fun z => key z == m) = l.filter (fun z => key z == m) := by
  induction l with
  | nil => rfl
  | cons x xs ih =>
    rw [sortDesc, filter_key_insertDesc, ih]
    simp only [List.filter_cons]

theorem build_sizeOk (e : FSEntry) : sizeOk (Node.build e) = true := by
  cases e with
  | statFail nm =>
    rw [build_statFail_eq, sizeOk]
    rfl
  | file nm sz ct mt =>
    rw [build_file_eq, sizeOk]
    rfl
  | dir nm sz ct mt ok l =>
    rw [build_dir_eq, sizeOk]
    rw [Bool.and_eq_true]
    constructor
    · simp
    · rw [List.all_eq_true]
      intro c _
      obtain ⟨e2, he2, hce⟩ := List.mem_map.mp c.2
      rw [← hce]
      exact build_sizeOk e2
termination_by sizeOf e
decreasing_by exact sizeOf_lt_of_mem_sorted he2

theorem build_leafTotal (e : FSEntry) : leafTotal (Node.build e) = (Node.build e).size := by
  cases e with
  | statFail nm =>
    rw [build_statFail_eq, leafTotal]
    rfl
  | file nm sz ct mt =>
    rw [build_file_eq, leafTotal]
    rfl
  | dir nm sz ct mt ok l =>
    rw [build_dir_eq, leafTotal, if_pos rfl]
    rw [attach_map_eq _ leafTotal, Node.size_mk]
    congr 1
    apply List.map_congr_left
    intro c hc
    obtain ⟨e2, he2, hce⟩ := List.mem_map.mp hc
    rw [← hce]
    exact build_leafTotal e2
termination_by sizeOf e
decreasing_by exact sizeOf_lt_of_mem_sorted he2

theorem build_sortedOk (e : FSEntry) : sortedOk (Node.build e) := by
  cases e with
  | statFail nm =>
    rw [build_statFail_eq, sortedOk]
    exact ⟨List.Pairwise.nil, fun c hc => absurd c.2 (List.not_mem_nil c.1)⟩
  | file nm sz ct mt =>
    rw [build_file_eq, sortedOk]
    exact ⟨List.Pairwise.nil, fun c hc => absurd c.2 (List.not_mem_nil c.1)⟩
  | dir nm sz ct mt ok l =>
    rw [build_dir_eq, sortedOk]
    constructor
    · rw [List.pairwise_map]
      refine List.Pairwise.imp_of_mem ?_ (pairwise_sortDesc entryMtime _)
      intro a b ha hb hle
      rw [build_mtime (List.of_mem_filter (mem_of_mem_sortDesc ha)),
        build_mtime (List.of_mem_filter (mem_of_mem_sortDesc hb))]
      exact hle
    · intro c hc
      obtain ⟨e2, he2, hce⟩ := List.mem_map.mp c.2
      rw [← hce]
      exact build_sortedOk e2
termination_by sizeOf e
decreasing_by exact sizeOf_lt_of_mem_sorted he2

theorem build_children_filter_mtime (nm : String) (sz : ℕ) (ct mt : ℚ) (ok : Bool)
    (l : List FSEntry) (m : ℚ) :
    ((Node.build (.dir nm sz ct mt ok l)).children.filter fun c => c.mtime == m)
      = ((if ok then l else []).filter fun e => statOk e && (entryMtime e == m)).map
          Node.build := by
  rw [build_dir_eq, Node.children_mk]
  rw [List.filter_map]
  have h1 : (sortDesc entryMtime ((if ok then l else []).filter statOk)).filter
        ((fun c => c.mtime == m) ∘ Node.build)
      = (sortDesc entryMtime ((if ok then l else []).filter statOk)).filter
        (fun z => entryMtime z == m) := by
    apply List.filter_congr
    intro e he
    simp only [Function.comp_apply]
    rw [build_mtime (List.of_mem_filter (mem_of_mem_sortDesc he))]
  rw [h1, filter_key_sortDesc]
  congr 1
  rw [List.filter_filter]
  apply List.filter_congr
  intro e he
  exact Bool.and_comm (entryMtime e == m) (statOk e)

theorem wellEscaped_flatten_map (l : List Char) :
    wellEscaped (l.map escapeChar).flatten = true := by
  induction l with
  | nil => rw [List.map_nil, List.flatten_nil, wellEscaped]
  | cons c cs ih =>
    rw [List.map_cons, List.flatten_cons]
    by_cases h1 : c = '&'
    · subst h1
      rw [escapeChar, if_pos rfl]
      simp only [List.cons_append, List.nil_append]
      rw [wellEscaped, if_neg (by decide), if_pos rfl]
      show wellEscaped (cs.map escapeChar).flatten = true
      exact ih
    · by_cases h2 : c = '<'
      · subst h2
        rw [escapeChar, if_neg (by decide), if_pos rfl]
        simp only [List.cons_append, List.nil_append]
        rw [wellEscaped, if_neg (by decide), if_pos rfl]
        show wellEscaped (cs.map escapeChar).flatten = true
        exact ih
      · by_cases h3 : c = '>'
        · subst h3
          rw [escapeChar, if_neg (by decide), if_neg (by decide), if_pos rfl]
          simp only [List.cons_append, List.nil_append]
          rw [wellEscaped, if_neg (by decide), if_pos rfl]
          show wellEscaped (cs.map escapeChar).flatten = true
          exact ih
        · rw [escapeChar, if_neg h1, if_neg h2, if_neg h3]
          simp only [List.cons_append, List.nil_append]
          rw [wellEscaped]
          rw [if_neg (by
            rintro (hlt | hgt)
            exacts [h2 hlt, h3 hgt])]
          rw [if_neg h1]
          exact ih

theorem wellEscaped_html_escape (s : String) : wellEscaped (html_escape s).data = true := by
  rw [html_escape]
  exact wellEscaped_flatten_map s.data

theorem escapeChar_of_not_special {c : Char} (h1 : c ≠ '&') (h2 : c ≠ '<') (h3 : c ≠ '>') :
    escapeChar c = [c] := by
  rw [escapeChar, if_neg h1, if_neg h2, if_neg h3]

theorem mem_html_escape_of_mem {c : Char} {s : String} (h1 : c ≠ '&') (h2 : c ≠ '<')
    (h3 : c ≠ '>') (hm : c ∈ s.data) : c ∈ (html_escape s).data := by
  rw [html_escape]
  show c ∈ (s.data.map escapeChar).flatten
  rw [List.mem_flatten]
  exact ⟨[c], List.mem_map.mpr ⟨c, hm, escapeChar_of_not_special h1 h2 h3⟩,
    List.mem_singleton.mpr rfl⟩

theorem to_html_decomp (n : Node) (i : ℕ) :
    ∃ pre post, Node.to_html n i = pre ++ (html_escape n.name ++ post) := by
  cases n with
  | mk nm d sz ct mt ch =>
    cases d with
    | false =>
      refine ⟨padStr i ++ "<li>📄 ",
        " <small>(" ++ human_size sz ++ ", modified " ++ ts_to_str mt ++ ")</small></li>\n",
        ?_⟩
      rw [to_html_leaf_eq, Node.name_mk]
      apply String.ext
      simp only [String.data_append, List.append_assoc]
    | true =>
      refine ⟨padStr i ++ "<details open>\n" ++ padStr i ++ "  <summary>📁 <strong>",
        "/</strong>" ++ " (" ++ human_size sz ++ ", modified " ++ ts_to_str mt
          ++ ")</summary>\n" ++ padStr i ++ "  <ul>\n"
          ++ String.join (ch.map fun c => Node.to_html c (i + 2))
          ++ (padStr i ++ "  </ul>\n" ++ padStr i ++ "</details>\n"),
        ?_⟩
      rw [to_html_dir_eq, Node.name_mk]
      apply String.ext
      simp only [String.data_append, List.append_assoc]

theorem formatFix1_up (q : ℚ) (f : ℤ) (hf : ⌊q * 10⌋ = f) (h : 1/2 < q * 10 - f) :
    formatFix1 q = toString ((f + 1) / 10) ++ "." ++ toString ((f + 1) % 10) := by
  rw [formatFix1]
  simp only [hf]
  rw [if_pos (Or.inl h)]

theorem formatFix1_down (q : ℚ) (f : ℤ) (hf : ⌊q * 10⌋ = f) (h : q * 10 - f < 1/2) :
    formatFix1 q = toString (f / 10) ++ "." ++ toString (f % 10) := by
  rw [formatFix1]
  simp only [hf]
  rw [if_neg]
  rintro (h1 | ⟨h1, h2⟩)
  · exact absurd h (not_lt.mpr (le_of_lt h1))
  · rw [h1] at h
    exact lt_irrefl _ h

theorem floor_ofInt (n : ℤ) (q : ℚ) (h : q = (n : ℚ)) : ⌊q⌋ = n := by
  rw [h]
  exact Int.floor_intCast n

theorem humanLoop_spec (us : List String) (num v : ℚ) (s : String)
    (h : humanLoop num us = (v, some s)) :
    ∃ u ∈ us, s = fmtUnit v u ∧ (u = "TiB" ∨ v < 1024) := by
  induction us generalizing num with
  | nil =>
    rw [humanLoop] at h
    simp at h
  | cons u rest ih =>
    rw [humanLoop] at h
    by_cases hc : num < 1024 ∨ u = "TiB"
    · rw [if_pos hc] at h
      simp only [Prod.mk.injEq, Option.some.injEq] at h
      obtain ⟨h1, h2⟩ := h
      subst h1
      refine ⟨u, List.mem_cons_self u rest, h2.symm, ?_⟩
      rcases hc with hc | hc
      · exact Or.inr hc
      · exact Or.inl hc
    · rw [if_neg hc] at h
      obtain ⟨u2, hu2, hs, hb⟩ := ih (num / 1024) h
      exact ⟨u2, List.mem_cons_of_mem u hu2, hs, hb⟩

/-- C1: in every tree returned by Node.build, each directory node's size
equals the sum of its direct children's sizes (checked recursively by
sizeOk), hence transitively the sum of all descendant file sizes
(leafTotal), and a directory's size is never read from its own filesystem
stat: the built tree is independent of the size the directory's stat
reports. -/
theorem build_dir_size_is_sum_of_children :
    (∀ e : FSEntry, sizeOk (Node.build e) = true) ∧
    (∀ e : FSEntry, leafTotal (Node.build e) = (Node.build e).size) ∧
    (∀ (nm : String) (sz1 sz2 : ℕ) (ct mt : ℚ) (ok : Bool) (l : List FSEntry),
      Node.build (.dir nm sz1 ct mt ok l) = Node.build (.dir nm sz2 ct mt ok l)) :=
  ⟨build_sizeOk, build_leafTotal, fun nm sz1 sz2 ct mt ok l => by
    rw [build_dir_eq, build_dir_eq]⟩

/-- C2: in every tree returned by Node.build the children of each directory
are in non-increasing order of modification time (sortedOk holds
recursively), and for each fixed modification time the children carrying it
are exactly the successfully-stat'd enumerated entries with that time, in
filesystem enumeration order (stability of the sort). -/
theorem build_children_sorted_stable :
    (∀ e : FSEntry, sortedOk (Node.build e)) ∧
    (∀ (nm : String) (sz : ℕ) (ct mt : ℚ) (ok : Bool) (l : List FSEntry) (m : ℚ),
      ((Node.build (.dir nm sz ct mt ok l)).children.filter fun c => c.mtime == m)
        = ((if ok then l else []).filter fun e => statOk e && (entryMtime e == m)).map
            Node.build) :=
  ⟨build_sortedOk, build_children_filter_mtime⟩

/-- C3: a path whose stat fails is built, without any exception escaping
(Node.build is total), as a ghost leaf: non-directory, size 0, both
timestamps 0, no children. -/
theorem build_stat_failure_ghost (nm : String) :
    Node.build (.statFail nm) = Node.mk nm false 0 0 0 [] :=
  build_statFail_eq nm

/-- C4: an enumerated child whose stat fails is entirely absent from the
built directory: deleting it from the enumeration changes nothing, so it is
not recursed into, appears nowhere in the children, and contributes 0 to
the parent's cumulative size. -/
theorem build_drops_failed_child (nm : String) (sz : ℕ) (ct mt : ℚ) (ok : Bool)
    (l1 l2 : List FSEntry) (bad : FSEntry) (h : statOk bad = false) :
    Node.build (.dir nm sz ct mt ok (l1 ++ bad :: l2))
      = Node.build (.dir nm sz ct mt ok (l1 ++ l2)) := by
  have hfilter : ((if ok then l1 ++ bad :: l2 else []).filter statOk)
      = ((if ok then l1 ++ l2 else []).filter statOk) := by
    cases ok with
    | false => rfl
    | true =>
      show (l1 ++ bad :: l2).filter statOk = (l1 ++ l2).filter statOk
      rw [List.filter_append, List.filter_cons, h, List.filter_append]
      rfl
  rw [build_dir_eq, build_dir_eq, hfilter]

/-- Witness for C4 at a concrete input: a directory that enumerates a good
file and a child whose stat fails builds to the same node as without the
failing child. -/
theorem build_drops_failed_child_witness :
    statOk (FSEntry.statFail "x") = false ∧
    Node.build (.dir "d" 0 0 0 true ([FSEntry.file "a" 1 0 0] ++ FSEntry.statFail "x" :: []))
      = Node.build (.dir "d" 0 0 0 true ([FSEntry.file "a" 1 0 0] ++ [])) :=
  ⟨rfl, build_drops_failed_child "d" 0 0 0 true [FSEntry.file "a" 1 0 0] []
    (FSEntry.statFail "x") rfl⟩

/-- C5: the six concrete values of the size formatter: 1 byte is singular,
values below 1024 stay in bytes, and 1024, 1536 and 1048576 render with one
decimal in KiB and MiB. -/
theorem human_size_concrete_values :
    human_size 1 = "1 byte" ∧ human_size 0 = "0 bytes" ∧ human_size 1023 = "1023 bytes" ∧
    human_size 1024 = "1.0 KiB" ∧ human_size 1536 = "1.5 KiB" ∧
    human_size 1048576 = "1.0 MiB" := by
  refine ⟨by rfl, ?_, ?_, ?_, ?_, ?_⟩
  · rw [human_size, if_neg (by norm_num), sizeUnits, humanLoop]
    rw [if_pos (Or.inl (by norm_num))]
    show fmtUnit ((0 : ℕ) : ℚ) "bytes" = _
    rw [fmtUnit, if_pos rfl]
    decide
  · rw [human_size, if_neg (by norm_num), sizeUnits, humanLoop]
    rw [if_pos (Or.inl (by norm_num))]
    show fmtUnit ((1023 : ℕ) : ℚ) "bytes" = _
    rw [fmtUnit, if_pos rfl]
    decide
  · rw [human_size, if_neg (by norm_num), sizeUnits, humanLoop]
    rw [if_neg (by push_neg; exact ⟨by norm_num, by decide⟩)]
    rw [show ((1024 : ℕ) : ℚ) / 1024 = 1 by norm_num]
    rw [humanLoop, if_pos (Or.inl (by norm_num))]
    show fmtUnit 1 "KiB" = _
    rw [fmtUnit, if_neg (by decide)]
    rw [formatFix1_down 1 10 (floor_ofInt 10 _ (by norm_num)) (by norm_num)]
    decide
  · rw [human_size, if_neg (by norm_num), sizeUnits, humanLoop]
    rw [if_neg (by push_neg; exact ⟨by norm_num, by decide⟩)]
    rw [show ((1536 : ℕ) : ℚ) / 1024 = 3/2 by norm_num]
    rw [humanLoop, if_pos (Or.inl (by norm_num))]
    show fmtUnit (3/2) "KiB" = _
    rw [fmtUnit, if_neg (by decide)]
    rw [formatFix1_down (3/2) 15 (floor_ofInt 15 _ (by norm_num)) (by norm_num)]
    decide
  · rw [human_size, if_neg (by norm_num), sizeUnits, humanLoop]
    rw [if_neg (by push_neg; exact ⟨by norm_num, by decide⟩)]
    rw [show ((1048576 : ℕ) : ℚ) / 1024 = 1024 by norm_num]
    rw [humanLoop, if_neg (by push_neg; exact ⟨by norm_num, by decide⟩)]
    rw [show (1024 : ℚ) / 1024 = 1 by norm_num]
    rw [humanLoop, if_pos (Or.inl (by norm_num))]
    show fmtUnit 1 "MiB" = _
    rw [fmtUnit, if_neg (by decide)]
    rw [formatFix1_down 1 10 (floor_ofInt 10 _ (by norm_num)) (by norm_num)]
    decide

/-- C6 counterexample: 1048570 bytes is 1023.994... KiB, below the 1024
boundary, so the loop keeps the KiB unit; the one-decimal rounding then
displays it as 1024.0, so the formatter does display a value of 1024 in a
unit (KiB) although a larger unit (MiB) is available. -/
theorem human_size_displays_1024_in_kib : human_size 1048570 = "1024.0 KiB" := by
  rw [human_size, if_neg (by norm_num), sizeUnits, humanLoop]
  rw [if_neg (by push_neg; exact ⟨by norm_num, by decide⟩)]
  rw [show ((1048570 : ℕ) : ℚ) / 1024 = 524285/512 by norm_num]
  rw [humanLoop, if_pos (Or.inl (by norm_num))]
  show fmtUnit (524285/512) "KiB" = _
  rw [fmtUnit, if_neg (by decide)]
  rw [formatFix1_up (524285/512) 10239
    (by rw [show (524285 : ℚ)/512 * 10 = 2621425/256 by norm_num, Int.floor_eq_iff]
        constructor <;> norm_num)
    (by norm_num)]
  decide

/-- C6 (amended): the unit boundary is crossed on the pre-rounding running
value: whenever the loop returns, the value handed to the formatter is
below 1024 unless the unit is TiB (the largest unit the loop can emit,
which carries unbounded values).  Display rounding may nevertheless show
"1024.0" in a non-largest unit for values just under the boundary, as the
counterexample shows. -/
theorem humanLoop_unit_value_bound (n : ℕ) (v : ℚ) (s : String)
    (h : humanLoop (n : ℚ) sizeUnits = (v, some s)) :
    ∃ u ∈ sizeUnits, s = fmtUnit v u ∧ (u = "TiB" ∨ v < 1024) :=
  humanLoop_spec sizeUnits (n : ℚ) v s h

/-- Witness for C6 (amended) at a concrete input: 2048 bytes returns from
the loop in the KiB unit with running value 2, which is below 1024. -/
theorem humanLoop_unit_value_bound_witness :
    humanLoop ((2048 : ℕ) : ℚ) sizeUnits = (2, some "2.0 KiB") ∧
    ∃ u ∈ sizeUnits, "2.0 KiB" = fmtUnit 2 u ∧ (u = "TiB" ∨ (2 : ℚ) < 1024) := by
  have hf : fmtUnit 2 "KiB" = "2.0 KiB" := by
    rw [fmtUnit, if_neg (by decide)]
    rw [formatFix1_down 2 20 (floor_ofInt 20 _ (by norm_num)) (by norm_num)]
    decide
  have h : humanLoop ((2048 : ℕ) : ℚ) sizeUnits = (2, some "2.0 KiB") := by
    rw [sizeUnits, humanLoop]
    rw [if_neg (by push_neg; exact ⟨by norm_num, by decide⟩)]
    rw [show ((2048 : ℕ) : ℚ) / 1024 = 2 by norm_num]
    rw [humanLoop, if_pos (Or.inl (by norm_num))]
    rw [hf]
  exact ⟨h, humanLoop_unit_value_bound 2048 2 "2.0 KiB" h⟩

/-- C7: the PiB fallback line of human_size is dead code.  The loop
condition `num_bytes < 1024.0 or unit == "TiB"` always fires at the TiB
unit, so the loop returns for every input (second conjunct) and even 1024
TiB (1125899906842624 bytes) renders with the TiB unit, never PiB. -/
theorem human_size_never_reaches_pib :
    human_size 1125899906842624 = "1024.0 TiB" ∧
    ∀ q : ℚ, ∃ s : String, (humanLoop q sizeUnits).2 = some s := by
  constructor
  · rw [human_size, if_neg (by norm_num), sizeUnits, humanLoop]
    rw [if_neg (by push_neg; exact ⟨by norm_num, by decide⟩)]
    rw [show ((1125899906842624 : ℕ) : ℚ) / 1024 = 1099511627776 by norm_num]
    rw [humanLoop, if_neg (by push_neg; exact ⟨by norm_num, by decide⟩)]
    rw [show (1099511627776 : ℚ) / 1024 = 1073741824 by norm_num]
    rw [humanLoop, if_neg (by push_neg; exact ⟨by norm_num, by decide⟩)]
    rw [show (1073741824 : ℚ) / 1024 = 1048576 by norm_num]
    rw [humanLoop, if_neg (by push_neg; exact ⟨by norm_num, by decide⟩)]
    rw [show (1048576 : ℚ) / 1024 = 1024 by norm_num]
    rw [humanLoop, if_pos (Or.inr rfl)]
    show fmtUnit 1024 "TiB" = _
    rw [fmtUnit, if_neg (by decide)]
    rw [formatFix1_down 1024 10240 (floor_ofInt 10240 _ (by norm_num)) (by norm_num)]
    decide
  · intro q
    rw [sizeUnits, humanLoop]
    split
    · exact ⟨_, rfl⟩
    · rw [humanLoop]
      split
      · exact ⟨_, rfl⟩
      · rw [humanLoop]
        split
        · exact ⟨_, rfl⟩
        · rw [humanLoop]
          split
          · exact ⟨_, rfl⟩
          · rw [humanLoop, if_pos (Or.inr rfl)]
            exact ⟨_, rfl⟩

/-- C8: every node's display name reaches the rendered fragment only
through html_escape (the fragment decomposes around the escaped name), and
the escaped name is well escaped: it contains no raw markup characters and
every ampersand in it starts an entity, so the name is never interpreted as
raw structural markup. -/
theorem to_html_name_well_escaped (n : Node) (i : ℕ) :
    (∃ pre post, Node.to_html n i = pre ++ (html_escape n.name ++ post)) ∧
    wellEscaped (html_escape n.name).data = true :=
  ⟨to_html_decomp n i, wellEscaped_html_escape n.name⟩

/-- C9 counterexample: rendering a directory with one child at depth 0 does
not produce the group header, the child rendered one level deeper (at
depth 1), and the footer: the child is actually rendered at depth 2, so the
claimed equality fails at this concrete input. -/
theorem to_html_child_not_depth_plus_one :
    Node.to_html (Node.mk "d" true 5 0 0 [Node.mk "f" false 5 0 0 []]) 0 ≠
      (padStr 0 ++ "<details open>\n"
        ++ padStr 0 ++ "  <summary>📁 <strong>" ++ html_escape "d" ++ "/</strong>"
        ++ " (" ++ human_size 5 ++ ", modified " ++ ts_to_str 0 ++ ")</summary>\n"
        ++ padStr 0 ++ "  <ul>\n")
      ++ Node.to_html (Node.mk "f" false 5 0 0 []) 1
      ++ (padStr 0 ++ "  </ul>\n" ++ padStr 0 ++ "</details>\n") := by
  rw [to_html_dir_eq]
  simp only [List.map_cons, List.map_nil]
  rw [to_html_leaf_eq, to_html_leaf_eq]
  decide

/-- C9 (amended): when the renderer processes a directory at indent d it
emits the group header in the expanded (open) state, then each child's
fragment in the children's fixed order rendered at indent d + 2 — two
indentation units deeper, one markup nesting level (the details group and
its embedded list) — then the group footer. -/
theorem to_html_dir_children_at_indent_plus_two (nm : String) (sz : ℕ) (ct mt : ℚ)
    (ch : List Node) (indent : ℕ) :
    Node.to_html (.mk nm true sz ct mt ch) indent =
      (padStr indent ++ "<details open>\n"
        ++ padStr indent ++ "  <summary>📁 <strong>" ++ html_escape nm ++ "/</strong>"
        ++ " (" ++ human_size sz ++ ", modified " ++ ts_to_str mt ++ ")</summary>\n"
        ++ padStr indent ++ "  <ul>\n")
      ++ String.join (ch.map fun c => Node.to_html c (indent + 2))
      ++ (padStr indent ++ "  </ul>\n" ++ padStr indent ++ "</details>\n") :=
  to_html_dir_eq nm sz ct mt ch indent

/-- C10: name escaping rewrites only the three markup characters, every
other character passing through verbatim; in particular a double or single
quote in a node's display name occurs verbatim in the rendered fragment
(character 34 is the double quote, character 39 the single quote). -/
theorem to_html_quote_passthrough :
    (∀ c : Char, c ≠ '&' → c ≠ '<' → c ≠ '>' → escapeChar c = [c]) ∧
    (∀ (n : Node) (i : ℕ) (q : Char), (q = Char.ofNat 34 ∨ q = Char.ofNat 39) →
      q ∈ n.name.data → q ∈ (Node.to_html n i).data) := by
  constructor
  · exact fun c h1 h2 h3 => escapeChar_of_not_special h1 h2 h3
  · intro n i q hq hmem
    obtain ⟨pre, post, hdecomp⟩ := to_html_decomp n i
    rw [hdecomp]
    rw [String.data_append, String.data_append]
    refine List.mem_append.mpr (Or.inr (List.mem_append.mpr (Or.inl ?_)))
    apply mem_html_escape_of_mem ?_ ?_ ?_ hmem
    all_goals rcases hq with rfl | rfl <;> decide

/-- Witness for C10 at a concrete input: a leaf whose name contains a
double quote renders to a fragment containing that double quote. -/
theorem to_html_quote_passthrough_witness :
    (Char.ofNat 34 = Char.ofNat 34 ∨ Char.ofNat 34 = Char.ofNat 39) ∧
    Char.ofNat 34 ∈ (Node.mk (String.mk [ 'a', Char.ofNat 34, 'b' ]) false 0 0 0 []).name.data ∧
    Char.ofNat 34 ∈
      (Node.to_html (Node.mk (String.mk [ 'a', Char.ofNat 34, 'b' ]) false 0 0 0 []) 0).data :=
  ⟨Or.inl rfl, by decide,
    to_html_quote_passthrough.2 _ 0 _ (Or.inl rfl) (by decide)⟩
